import Mathlib

/-!
Verification development for the remote-disk abstraction layer
(`src/Disks/IDiskRemote.h`): the local metadata record format and its
versioning, the remote-disk facade (hard-link reference counting and
deferred remote deletion), reservation accounting, the async executor
worker, the path batcher and the directory iterator.

Method bodies that live outside the provided header (the accompanying
translation unit) are modelled from the specification document; such
definitions carry a doc comment starting with `Modelled from the spec:`.
Definitions whose bodies appear in the header itself are translated
directly from it.
-/

namespace DiskRemote

/-! ### Association-list helpers (first-match semantics) -/

def alistGet {α β : Type} [DecidableEq α] (k : α) : List (α × β) → Option β
  | [] => none
  | (k₀, v) :: rest => if k₀ = k then some v else alistGet k rest

/-- Replace the value at the first occurrence of key `k` (no-op if absent). -/
def alistSet {α β : Type} [DecidableEq α] (k : α) (v : β) : List (α × β) → List (α × β)
  | [] => []
  | (k₀, v₀) :: rest => if k₀ = k then (k₀, v) :: rest else (k₀, v₀) :: alistSet k v rest

/-- Remove the first occurrence of key `k` (no-op if absent). -/
def alistRemove {α β : Type} [DecidableEq α] (k : α) : List (α × β) → List (α × β)
  | [] => []
  | (k₀, v₀) :: rest => if k₀ = k then rest else (k₀, v₀) :: alistRemove k rest

theorem alistGet_alistSet {α β : Type} [DecidableEq α] (k : α) (v : β)
    (l : List (α × β)) (h : (alistGet k l).isSome) :
    alistGet k (alistSet k v l) = some v := by
  induction l with
  | nil => simp [alistGet] at h
  | cons hd tl ih =>
    obtain ⟨k₀, v₀⟩ := hd
    by_cases hk : k₀ = k
    · simp [alistGet, alistSet, hk]
    · simp [alistGet, alistSet, hk] at h ⊢
      exact ih h

theorem alistGet_alistSet_ne {α β : Type} [DecidableEq α] (k k₁ : α) (v : β)
    (l : List (α × β)) (hne : k₁ ≠ k) :
    alistGet k (alistSet k₁ v l) = alistGet k l := by
  induction l with
  | nil => simp [alistSet]
  | cons hd tl ih =>
    obtain ⟨k₀, v₀⟩ := hd
    by_cases hk : k₀ = k₁
    · subst hk
      simp [alistSet, alistGet, hne]
    · simp [alistSet, alistGet, hk, ih]

theorem alistGet_alistRemove_ne {α β : Type} [DecidableEq α] (k k₁ : α)
    (l : List (α × β)) (hne : k₁ ≠ k) :
    alistGet k (alistRemove k₁ l) = alistGet k l := by
  induction l with
  | nil => simp [alistRemove]
  | cons hd tl ih =>
    obtain ⟨k₀, v₀⟩ := hd
    by_cases hk : k₀ = k₁
    · subst hk
      simp [alistRemove, alistGet, hne]
    · simp [alistRemove, alistGet, hk, ih]

/-! ### Metadata record

Mirrors `struct IDiskRemote::Metadata` from the header: remote-FS root
path, disk path, local metadata file path, total size, the ordered
sequence of `(remote object path, size)` pairs, hard-link reference
count, and the read-only flag. -/

/-- Metadata file version storing absolute object paths (header constant). -/
def VERSION_ABSOLUTE_PATHS : Nat := 1

/-- Metadata file version storing root-relative object paths (header constant). -/
def VERSION_RELATIVE_PATHS : Nat := 2

/-- Metadata file version adding the read-only flag (header constant, newest). -/
def VERSION_READ_ONLY_FLAG : Nat := 3

structure Metadata where
  remote_fs_root_path : String
  disk_path : String
  metadata_file_path : String
  total_size : Nat
  remote_fs_objects : List (String × Nat)
  ref_count : Nat
  read_only : Bool
deriving DecidableEq

/-- Modelled from the spec: the `Metadata` constructor with `create = true`
(the body is in the translation unit, absent from the header) returns an
empty record — newest version, `ref_count = 1`, no objects. -/
def createMeta (root disk p : String) : Metadata :=
  { remote_fs_root_path := root
    disk_path := disk
    metadata_file_path := p
    total_size := 0
    remote_fs_objects := []
    ref_count := 1
    read_only := false }

/-- Modelled from the spec: `addObject(path, size)` appends the pair and
increments `total_size`; it does not persist. -/
def addObject (m : Metadata) (path : String) (size : Nat) : Metadata :=
  { m with
    remote_fs_objects := m.remote_fs_objects ++ [(path, size)]
    total_size := m.total_size + size }

/-- A record built by a sequence of `addObject` calls on a fresh record. -/
def buildMeta (root disk p : String) (adds : List (String × Nat)) : Metadata :=
  adds.foldl (fun m a => addObject m a.1 a.2) (createMeta root disk p)

/-! ### Metadata file layout and (de)serialization

The spec gives the logical field layout (field order fixed per version):
version, object count, the `(path, size)` pairs (path absolute for v1,
root-relative for v2 and v3), `ref_count`, and — only for version ≥ 3 —
`read_only`. We embed a metadata file as the flat sequence of its fields. -/

inductive Tok where
  | nat (n : Nat)
  | str (s : String)
  | bool (b : Bool)
deriving DecidableEq

/-- Drop `pre` from the front of `l`; `none` if `pre` is not a prefix. -/
def dropPre : List Char → List Char → Option (List Char)
  | [], l => some l
  | _ :: _, [] => none
  | c :: cs, d :: ds => if c = d then dropPre cs ds else none

theorem dropPre_append (pre rest : List Char) : dropPre pre (pre ++ rest) = some rest := by
  induction pre with
  | nil => simp [dropPre]
  | cons c cs ih => simp [dropPre, ih]

/-- Strip the remote root from an absolute stored path (version-1 files);
fails when the root is not a prefix of the stored path. -/
def stripRoot (root p : String) : Option String :=
  match dropPre root.data p.data with
  | none => none
  | some rest => some ⟨rest⟩

/-- Modelled from the spec: `save` (body in the translation unit) serializes
the newest version tag, the object count, the `(path, size)` sequence with
root-relative paths, `ref_count`, and `read_only`. -/
def saveMeta (m : Metadata) : List Tok :=
  Tok.nat VERSION_READ_ONLY_FLAG :: Tok.nat m.remote_fs_objects.length ::
    (m.remote_fs_objects.map (fun o => [Tok.str o.1, Tok.nat o.2])).flatten ++
    [Tok.nat m.ref_count, Tok.bool m.read_only]

/-- Parse `n` stored `(path, size)` pairs, reconstructing root-relative
paths: version-1 files store absolute paths, whose root prefix is
stripped; versions 2 and 3 store root-relative paths taken as-is. -/
def parseObjects (root : String) (version : Nat) :
    Nat → List Tok → Option (List (String × Nat) × List Tok)
  | 0, toks => some ([], toks)
  | n + 1, Tok.str p :: Tok.nat sz :: rest =>
    match parseObjects root version n rest with
    | none => none
    | some (objs, rest₁) =>
      if version = VERSION_ABSOLUTE_PATHS then
        match stripRoot root p with
        | none => none
        | some rel => some ((rel, sz) :: objs, rest₁)
      else
        some ((p, sz) :: objs, rest₁)
  | _ + 1, _ => none

def sumSizes (objs : List (String × Nat)) : Nat := (objs.map Prod.snd).sum

/-- Modelled from the spec: the `Metadata` constructor with `create = false`
(body in the translation unit) parses an existing file: it accepts the three
recognized versions and rejects others, branches on the version tag for
path reconstruction, reads `ref_count`, and parses `read_only` only for
version ≥ 3; `total_size` always equals the sum of object sizes. -/
def loadMeta (root disk fname : String) (file : List Tok) : Option Metadata :=
  match file with
  | Tok.nat version :: Tok.nat count :: rest =>
    if version < VERSION_ABSOLUTE_PATHS ∨ VERSION_READ_ONLY_FLAG < version then none
    else
      match parseObjects root version count rest with
      | some (objs, Tok.nat rc :: rest₁) =>
        if VERSION_READ_ONLY_FLAG ≤ version then
          match rest₁ with
          | [Tok.bool ro] =>
            some ⟨root, disk, fname, sumSizes objs, objs, rc, ro⟩
          | _ => none
        else
          match rest₁ with
          | [] => some ⟨root, disk, fname, sumSizes objs, objs, rc, false⟩
          | _ => none
      | _ => none
  | _ => none

/-! ### Local metadata tree and the remote-disk facade

Hard links are real in this system: two local paths may share one
metadata file. We model the local metadata tree as a store of metadata
files (inodes) plus a directory-entry map from local paths to inodes.
Remote-deletion candidates handed to the Path Batcher are returned
alongside the new state. -/

structure FsState where
  inodes : List (Nat × Metadata)
  dirents : List (String × Nat)
  next_inode : Nat
deriving DecidableEq

/-- Modelled from the spec: `removeMeta` (body in the translation unit)
loads the path's metadata, decrements `ref_count`; if the result is > 0 it
rewrites the metadata file with the decremented count and submits nothing;
if it reaches 0 it deletes the metadata file locally and, unless
`keep_in_remote_fs`, hands every recorded object path to the Path Batcher.
In both cases the local name is unlinked (the end-to-end scenario requires
`exists` to turn false for the removed path). -/
def removeMeta (p : String) (keep_in_remote_fs : Bool) (s : FsState) :
    Option (FsState × List String) :=
  match alistGet p s.dirents with
  | none => none
  | some i =>
    match alistGet i s.inodes with
    | none => none
    | some m =>
      let rc := m.ref_count - 1
      if 0 < rc then
        some ({ s with
                  dirents := alistRemove p s.dirents
                  inodes := alistSet i { m with ref_count := rc } s.inodes }, [])
      else
        some ({ s with
                  dirents := alistRemove p s.dirents
                  inodes := alistRemove i s.inodes },
              if keep_in_remote_fs then [] else m.remote_fs_objects.map Prod.fst)

/-- Modelled from the spec: `removeSharedFile` (body in the translation
unit) builds one Path Batcher, applies `removeMeta`, and drains the batch
to the backend; the submitted batch is the returned path list. -/
def removeSharedFile (p : String) (keep_in_remote_fs : Bool) (s : FsState) :
    Option (FsState × List String) :=
  removeMeta p keep_in_remote_fs s

/-- From the header: `removeFile(path)` is `removeSharedFile(path, false)`. -/
def removeFile (p : String) (s : FsState) : Option (FsState × List String) :=
  removeSharedFile p false s

/-- `true` when `q` lies strictly inside the subtree rooted at `p`. -/
def isUnder (p q : String) : Bool :=
  (dropPre (p ++ "/").data q.data).isSome

/-- Apply `removeMeta` to each named path in order, accumulating all
remote-deletion candidates into one batch. -/
def removeAll (names : List String) (keep_in_remote_fs : Bool) (s : FsState)
    (acc : List String) : Option (FsState × List String) :=
  match names with
  | [] => some (s, acc)
  | n :: rest =>
    match removeMeta n keep_in_remote_fs s with
    | none => none
    | some (s₁, subs) => removeAll rest keep_in_remote_fs s₁ (acc ++ subs)

/-- Modelled from the spec: `removeSharedRecursive` (body in the
translation unit) walks the subtree rooted at `path`, applies the per-file
logic to every file in it, and accumulates all remote-deletion candidates
into one Path Batcher instance. -/
def removeSharedRecursive (p : String) (keep_in_remote_fs : Bool) (s : FsState) :
    Option (FsState × List String) :=
  removeAll ((s.dirents.filter (fun kv => isUnder p kv.1)).map Prod.fst)
    keep_in_remote_fs s []

/-- From the header: `removeRecursive(path)` is
`removeSharedRecursive(path, false)`. -/
def removeRecursive (p : String) (s : FsState) : Option (FsState × List String) :=
  removeSharedRecursive p false s

/-- Modelled from the spec: `createHardLink(src, dst)` (body in the
translation unit) loads `src`'s metadata, increments `ref_count`, persists
it, and creates a local hard link at `dst` to the same metadata file. -/
def createHardLink (src dst : String) (s : FsState) : Option FsState :=
  match alistGet src s.dirents with
  | none => none
  | some i =>
    match alistGet i s.inodes with
    | none => none
    | some m =>
      some { s with
               inodes := alistSet i { m with ref_count := m.ref_count + 1 } s.inodes
               dirents := (dst, i) :: s.dirents }

/-- Modelled from the spec: `moveFile(from, to)` (body in the translation
unit) renames the local metadata file, leaving `ref_count` and the remote
objects untouched. -/
def moveFile (from_path to_path : String) (s : FsState) : Option FsState :=
  match alistGet from_path s.dirents with
  | none => none
  | some i =>
    some { s with dirents := (to_path, i) :: alistRemove from_path s.dirents }

/-- From the header: `moveDirectory(from, to)` is `moveFile(from, to)`. -/
def moveDirectory (from_path to_path : String) (s : FsState) : Option FsState :=
  moveFile from_path to_path s

/-! ### Reservation accounting

Modelled from the spec: `reserve` always succeeds for remote disks and
adds to `reserved_bytes` under the reservation mutex; `update(new_size)`
replaces the token's claim with net effect `new_size - old_size`;
destruction releases the full current size and decrements the
live-reservation counter. Live tokens are identified by fresh ids. -/

structure ResState where
  reserved_bytes : Int
  reservation_count : Nat
  live : List (Nat × Nat)
  next_id : Nat
deriving DecidableEq

inductive ResOp where
  | reserve (bytes : Nat)
  | update (tok : Nat) (new_size : Nat)
  | drop (tok : Nat)
deriving DecidableEq

def initRes : ResState := ⟨0, 0, [], 0⟩

def applyResOp (s : ResState) : ResOp → ResState
  | .reserve bytes =>
    { reserved_bytes := s.reserved_bytes + bytes
      reservation_count := s.reservation_count + 1
      live := (s.next_id, bytes) :: s.live
      next_id := s.next_id + 1 }
  | .update tok new_size =>
    match alistGet tok s.live with
    | none => s
    | some old =>
      { s with
          reserved_bytes := s.reserved_bytes - old + new_size
          live := alistSet tok new_size s.live }
  | .drop tok =>
    match alistGet tok s.live with
    | none => s
    | some sz =>
      { s with
          reserved_bytes := s.reserved_bytes - sz
          reservation_count := s.reservation_count - 1
          live := alistRemove tok s.live }

def runResOps (ops : List ResOp) : ResState := ops.foldl applyResOp initRes

/-- Sum of the current sizes of all live reservations. -/
def liveSum (s : ResState) : Int := (s.live.map (fun kv => (kv.2 : Int))).sum

/-! ### Path Batcher (RemoteFSPathKeeper)

The header declares only the abstract interface (`addPath` is pure
virtual, `chunk_limit` the bound). The accumulation behaviour is modelled
from the spec: `addPath` appends to the current batch; once a batch
reaches `chunk_limit` entries, the batcher starts a new batch. -/

structure PathKeeperState where
  chunk_limit : Nat
  batches : List (List String)
  current : List String
deriving DecidableEq

def initKeeper (chunk_limit : Nat) : PathKeeperState := ⟨chunk_limit, [], []⟩

/-- Modelled from the spec: append the identifier to the current batch;
once the batch reaches `chunk_limit` entries, close it and start a new
one. -/
def addPath (s : PathKeeperState) (p : String) : PathKeeperState :=
  let cur := s.current ++ [p]
  if s.chunk_limit ≤ cur.length then
    { s with batches := s.batches ++ [cur], current := [] }
  else
    { s with current := cur }

def addPaths (s : PathKeeperState) (ps : List String) : PathKeeperState :=
  ps.foldl addPath s

/-- All batches the keeper emits when drained: the closed batches followed
by the still-open batch. -/
def allBatches (s : PathKeeperState) : List (List String) :=
  s.batches ++ [s.current]

/-! ### Error model

The header throws `Exception(ErrorCodes::NOT_IMPLEMENTED, ...)` for the
backend hooks it does not implement (the spec's *NotSupported* kind). -/

inductive ErrorCode where
  | NOT_IMPLEMENTED
deriving DecidableEq

structure DiskException where
  code : ErrorCode
  message : String
deriving DecidableEq

/-- From the header: the base-facade `removeFromRemoteFS` unconditionally
throws NOT_IMPLEMENTED, touching nothing. -/
def removeFromRemoteFS (disk_name : String) (_fs_paths_keeper : PathKeeperState) :
    Except DiskException Unit :=
  .error ⟨.NOT_IMPLEMENTED, "Disk " ++ disk_name ++ " does not support removing remote files"⟩

/-- From the header: the base-facade `createFSPathKeeper` unconditionally
throws NOT_IMPLEMENTED. -/
def createFSPathKeeper (disk_name : String) : Except DiskException PathKeeperState :=
  .error ⟨.NOT_IMPLEMENTED, "Disk " ++ disk_name ++ " does not support FS paths keeper"⟩

/-! ### Async executor worker

From the header, the worker lambda scheduled by `AsyncExecutor::execute`:
run the task; on success fulfil the promise; on any exception, log it,
then try to attach it to the promise, swallowing any failure of that
attachment. We embed one worker execution as a function of the task's
outcome and of whether attaching the exception to the handle fails. -/

inductive TaskOutcome where
  | ok
  | raises (e : DiskException)
deriving DecidableEq

inductive HandleState where
  | pending
  | done
  | failed (e : DiskException)
deriving DecidableEq

structure ExecResult where
  handle : HandleState
  logged : List DiskException
  escaped_to_pool : Option DiskException
deriving DecidableEq

/-- From the header (`AsyncExecutor::execute`, lines 277–301): the
worker's try/catch structure around `task()`, `set_value`,
`tryLogCurrentException` and `set_exception`. -/
def runSubmittedTask (task : TaskOutcome) (set_exception_fails : Bool) : ExecResult :=
  match task with
  | .ok => ⟨.done, [], none⟩
  | .raises e =>
    { handle := if set_exception_fails then .pending else .failed e
      logged := [e]
      escaped_to_pool := none }

/-! ### Directory iterator

From the header (`RemoteDiskDirectoryIterator`): `path()` returns
`folder_path / filename / ""` for a directory entry and
`folder_path / filename` for a file entry; `name()` returns the bare
filename of the iterated entry. We embed `std::filesystem` path
appending (a separator is inserted unless the left side already ends
with one) and `filename()` (the component after the last separator). -/

structure DirEntry where
  entry_path : String
  is_directory : Bool
deriving DecidableEq

/-- Embedding of `fs::path::operator/` for the relative components this
iterator appends. -/
def pathAppend (p s : String) : String :=
  if p.data.getLast? = some '/' then p ++ s else p ++ "/" ++ s

/-- Embedding of `fs::path::filename()`: the component after the last
separator. -/
def filenameOf (p : String) : String :=
  ⟨p.data.foldl (fun acc c => if c = '/' then [] else acc ++ [c]) []⟩

/-- From the header: `RemoteDiskDirectoryIterator::path()`. -/
def iterPath (folder_path : String) (e : DirEntry) : String :=
  if e.is_directory then
    pathAppend (pathAppend folder_path (filenameOf e.entry_path)) ""
  else
    pathAppend folder_path (filenameOf e.entry_path)

/-- From the header: `RemoteDiskDirectoryIterator::name()`. -/
def iterName (e : DirEntry) : String := filenameOf e.entry_path

/-! ### Files as written under the older format versions

Modelled from the spec's logical layout table: a version-1 writer stores
each object path absolute (`root ++ relative`) and no read-only field; a
version-2 writer stores root-relative paths and no read-only field; a
version-3 writer stores root-relative paths and the read-only flag. -/

def mkFileV1 (root : String) (objs : List (String × Nat)) (rc : Nat) : List Tok :=
  Tok.nat VERSION_ABSOLUTE_PATHS :: Tok.nat objs.length ::
    (objs.map (fun o => [Tok.str (root ++ o.1), Tok.nat o.2])).flatten ++ [Tok.nat rc]

def mkFileV2 (objs : List (String × Nat)) (rc : Nat) : List Tok :=
  Tok.nat VERSION_RELATIVE_PATHS :: Tok.nat objs.length ::
    (objs.map (fun o => [Tok.str o.1, Tok.nat o.2])).flatten ++ [Tok.nat rc]

def mkFileV3 (objs : List (String × Nat)) (rc : Nat) (ro : Bool) : List Tok :=
  Tok.nat VERSION_READ_ONLY_FLAG :: Tok.nat objs.length ::
    (objs.map (fun o => [Tok.str o.1, Tok.nat o.2])).flatten ++ [Tok.nat rc, Tok.bool ro]

/-! ### Serialization lemmas -/

theorem parseObjects_rel (root : String) (version : Nat)
    (hv : version ≠ 1) (objs : List (String × Nat)) (tail : List Tok) :
    parseObjects root version objs.length
      ((objs.map (fun o => [Tok.str o.1, Tok.nat o.2])).flatten ++ tail) =
      some (objs, tail) := by
  induction objs with
  | nil => simp [parseObjects]
  | cons o rest ih =>
    obtain ⟨p, sz⟩ := o
    simp [parseObjects, ih, VERSION_ABSOLUTE_PATHS, hv]

theorem stripRoot_append (root rel : String) : stripRoot root (root ++ rel) = some rel := by
  have h : (root ++ rel).data = root.data ++ rel.data := rfl
  simp [stripRoot, h, dropPre_append]

theorem parseObjects_abs (root : String) (objs : List (String × Nat)) (tail : List Tok) :
    parseObjects root 1 objs.length
      ((objs.map (fun o => [Tok.str (root ++ o.1), Tok.nat o.2])).flatten ++ tail) =
      some (objs, tail) := by
  induction objs with
  | nil => simp [parseObjects]
  | cons o rest ih =>
    obtain ⟨p, sz⟩ := o
    simp [parseObjects, ih, stripRoot_append, VERSION_ABSOLUTE_PATHS]

theorem buildMeta_eq (root disk p : String) (adds : List (String × Nat)) :
    buildMeta root disk p adds = ⟨root, disk, p, sumSizes adds, adds, 1, false⟩ := by
  suffices h : ∀ (m : Metadata) (l : List (String × Nat)),
      l.foldl (fun m a => addObject m a.1 a.2) m =
        { m with remote_fs_objects := m.remote_fs_objects ++ l,
                 total_size := m.total_size + sumSizes l } by
    simp [buildMeta, h, createMeta, sumSizes]
  intro m l
  induction l generalizing m with
  | nil => simp [sumSizes]
  | cons a rest ih =>
    obtain ⟨q, sz⟩ := a
    rw [List.foldl_cons, ih]
    simp [addObject, sumSizes, Nat.add_assoc]

theorem loadMeta_saveMeta (root disk fname : String) (m : Metadata) :
    loadMeta root disk fname (saveMeta m) =
      some { m with remote_fs_root_path := root
                    disk_path := disk
                    metadata_file_path := fname
                    total_size := sumSizes m.remote_fs_objects } := by
  simp [saveMeta, loadMeta,
    parseObjects_rel root 3 (by decide) m.remote_fs_objects
      [Tok.nat m.ref_count, Tok.bool m.read_only],
    VERSION_ABSOLUTE_PATHS, VERSION_READ_ONLY_FLAG]

/-- C3: a record built by any finite sequence of `addObject` calls on a
freshly created record round-trips through `save` then `load`: the
reloaded record's objects (paths, sizes, order), `total_size`,
`ref_count` and `read_only` flag equal the pre-save in-memory state. -/
theorem C3_addObject_save_load_roundtrip :
    ∀ (root disk p : String) (adds : List (String × Nat)),
      loadMeta root disk p (saveMeta (buildMeta root disk p adds)) =
        some (buildMeta root disk p adds) := by
  intro root disk p adds
  rw [buildMeta_eq, loadMeta_saveMeta]

/-- C4: the metadata reader accepts all three format versions and branches
on the stored version tag — a version-1 file stores absolute object paths
whose root prefix is stripped back off, versions 2 and 3 store
root-relative paths, and `read_only` is parsed only for version 3 — so a
correctly written file of any recognized version loads to the same
root-relative object paths; and the writer always emits the newest
version tag. -/
theorem C4_version_compatibility :
    ∀ (root disk fname : String) (objs : List (String × Nat)) (rc : Nat) (ro : Bool),
      loadMeta root disk fname (mkFileV1 root objs rc) =
        some ⟨root, disk, fname, sumSizes objs, objs, rc, false⟩
    ∧ loadMeta root disk fname (mkFileV2 objs rc) =
        some ⟨root, disk, fname, sumSizes objs, objs, rc, false⟩
    ∧ loadMeta root disk fname (mkFileV3 objs rc ro) =
        some ⟨root, disk, fname, sumSizes objs, objs, rc, ro⟩
    ∧ ∀ (m : Metadata), (saveMeta m).head? = some (Tok.nat VERSION_READ_ONLY_FLAG) := by
  intro root disk fname objs rc ro
  refine ⟨?_, ?_, ?_, ?_⟩
  · simp [mkFileV1, loadMeta, parseObjects_abs root objs [Tok.nat rc],
      VERSION_ABSOLUTE_PATHS, VERSION_READ_ONLY_FLAG]
  · simp [mkFileV2, loadMeta, parseObjects_rel root 2 (by decide) objs [Tok.nat rc],
      VERSION_ABSOLUTE_PATHS, VERSION_RELATIVE_PATHS, VERSION_READ_ONLY_FLAG]
  · simp [mkFileV3, loadMeta,
      parseObjects_rel root 3 (by decide) objs [Tok.nat rc, Tok.bool ro],
      VERSION_ABSOLUTE_PATHS, VERSION_READ_ONLY_FLAG]
  · intro m
    simp [saveMeta]

/-! ### Facade removal lemmas -/

/-- C1: `removeSharedFile` on a path with an existing metadata record
decrements the record's `ref_count`; when the decremented count is still
positive it rewrites the metadata record with the new count, submits no
remote object for deletion and only unlinks the removed name; when the
count reaches 0 it deletes the metadata record locally and submits every
recorded object path exactly when `keep_in_remote_fs` is false. After
`createHardLink(a, b)` on a singly-referenced file, removing `a` submits
no candidates and removing `b` then submits exactly the objects recorded
under `a`'s metadata. -/
theorem C1_removeSharedFile_refcount :
    (∀ (s : FsState) (p : String) (keep : Bool) (i : Nat) (m : Metadata),
      alistGet p s.dirents = some i → alistGet i s.inodes = some m →
      1 ≤ m.ref_count →
      (0 < m.ref_count - 1 →
        removeSharedFile p keep s =
          some ({ s with
                    dirents := alistRemove p s.dirents
                    inodes := alistSet i { m with ref_count := m.ref_count - 1 } s.inodes },
                []))
      ∧ (m.ref_count - 1 = 0 →
        removeSharedFile p keep s =
          some ({ s with
                    dirents := alistRemove p s.dirents
                    inodes := alistRemove i s.inodes },
                if keep then [] else m.remote_fs_objects.map Prod.fst)))
  ∧ (∀ (s : FsState) (a b : String) (i : Nat) (m : Metadata),
      alistGet a s.dirents = some i → alistGet i s.inodes = some m →
      m.ref_count = 1 → a ≠ b →
      ∃ s₁ s₂ s₃,
        createHardLink a b s = some s₁
        ∧ removeSharedFile a false s₁ = some (s₂, [])
        ∧ removeSharedFile b false s₂ = some (s₃, m.remote_fs_objects.map Prod.fst)) := by
  constructor
  · intro s p keep i m hd hi hrc
    constructor
    · intro hpos
      simp only [removeSharedFile, removeMeta, hd, hi]
      rw [if_pos hpos]
    · intro hzero
      simp only [removeSharedFile, removeMeta, hd, hi]
      rw [if_neg (by omega)]
  · intro s a b i m hda hi hrc hab
    have hba : b ≠ a := fun h => hab h.symm
    refine ⟨{ s with
                inodes := alistSet i { m with ref_count := m.ref_count + 1 } s.inodes
                dirents := (b, i) :: s.dirents },
            { s with
                inodes := alistSet i { m with ref_count := m.ref_count + 1 - 1 }
                  (alistSet i { m with ref_count := m.ref_count + 1 } s.inodes)
                dirents := (b, i) :: alistRemove a s.dirents },
            { s with
                inodes := alistRemove i
                  (alistSet i { m with ref_count := m.ref_count + 1 - 1 }
                    (alistSet i { m with ref_count := m.ref_count + 1 } s.inodes))
                dirents := alistRemove b ((b, i) :: alistRemove a s.dirents) },
            ?_, ?_, ?_⟩
    · simp only [createHardLink, hda, hi]
    · have hda1 : alistGet a ((b, i) :: s.dirents) = some i := by
        simp [alistGet, hba, hda]
      have hi1 : alistGet i (alistSet i { m with ref_count := m.ref_count + 1 } s.inodes)
          = some { m with ref_count := m.ref_count + 1 } :=
        alistGet_alistSet i _ s.inodes (by rw [hi]; rfl)
      simp only [removeSharedFile, removeMeta, hda1, hi1]
      rw [if_pos (by simp; omega)]
      simp [alistRemove, hba]
    · have hdb2 : alistGet b ((b, i) :: alistRemove a s.dirents) = some i := by
        simp [alistGet]
      have hi2 : alistGet i
          (alistSet i { m with ref_count := m.ref_count + 1 - 1 }
            (alistSet i { m with ref_count := m.ref_count + 1 } s.inodes))
          = some { m with ref_count := m.ref_count + 1 - 1 } := by
        apply alistGet_alistSet
        rw [alistGet_alistSet i _ s.inodes (by rw [hi]; rfl)]
        rfl
      simp only [removeSharedFile, removeMeta, hdb2, hi2]
      rw [if_neg (by simp; omega)]
      simp

/-- Witness for C1 at a concrete one-object, singly-referenced file. -/
theorem C1_removeSharedFile_refcount_witness :
    removeSharedFile "a" false
        ⟨[(0, ⟨"root", "disk", "a", 3, [("obj1", 3)], 1, false⟩)], [("a", 0)], 1⟩
      = some (⟨[], [], 1⟩, ["obj1"])
    ∧ ∃ s₁ s₂ s₃,
        createHardLink "a" "b"
            ⟨[(0, ⟨"root", "disk", "a", 3, [("obj1", 3)], 1, false⟩)], [("a", 0)], 1⟩
          = some s₁
        ∧ removeSharedFile "a" false s₁ = some (s₂, [])
        ∧ removeSharedFile "b" false s₂ = some (s₃, ["obj1"]) := by
  constructor
  · have h := (C1_removeSharedFile_refcount.1
      ⟨[(0, ⟨"root", "disk", "a", 3, [("obj1", 3)], 1, false⟩)], [("a", 0)], 1⟩
      "a" false 0 ⟨"root", "disk", "a", 3, [("obj1", 3)], 1, false⟩
      (by decide) (by decide) (by decide)).2 (by decide)
    rw [h]
    decide
  · obtain ⟨s₁, s₂, s₃, h1, h2, h3⟩ := C1_removeSharedFile_refcount.2
      ⟨[(0, ⟨"root", "disk", "a", 3, [("obj1", 3)], 1, false⟩)], [("a", 0)], 1⟩
      "a" "b" 0 ⟨"root", "disk", "a", 3, [("obj1", 3)], 1, false⟩
      (by decide) (by decide) (by decide) (by decide)
    exact ⟨s₁, s₂, s₃, h1, h2, h3⟩

/-! ### Reservation lemmas -/

theorem liveSum_nonneg (s : ResState) : 0 ≤ liveSum s := by
  unfold liveSum
  apply List.sum_nonneg
  intro x hx
  simp only [List.mem_map] at hx
  obtain ⟨kv, _, rfl⟩ := hx
  exact Int.natCast_nonneg _

theorem map_sum_alistSet (tok new_size : Nat) (l : List (Nat × Nat)) (old_size : Nat)
    (h : alistGet tok l = some old_size) :
    ((alistSet tok new_size l).map (fun kv => (kv.2 : Int))).sum
      = (l.map (fun kv => (kv.2 : Int))).sum - old_size + new_size := by
  induction l with
  | nil => simp [alistGet] at h
  | cons hd tl ih =>
    obtain ⟨k, v⟩ := hd
    by_cases hk : k = tok
    · subst hk
      simp [alistGet] at h
      subst h
      simp [alistSet]
      ring
    · simp only [alistGet, if_neg hk] at h
      simp [alistSet, hk, ih h]
      ring

theorem map_sum_alistRemove (tok : Nat) (l : List (Nat × Nat)) (sz : Nat)
    (h : alistGet tok l = some sz) :
    ((alistRemove tok l).map (fun kv => (kv.2 : Int))).sum
      = (l.map (fun kv => (kv.2 : Int))).sum - sz := by
  induction l with
  | nil => simp [alistGet] at h
  | cons hd tl ih =>
    obtain ⟨k, v⟩ := hd
    by_cases hk : k = tok
    · subst hk
      simp [alistGet] at h
      subst h
      simp [alistRemove]
    · simp only [alistGet, if_neg hk] at h
      simp [alistRemove, hk, ih h]
      ring

theorem applyResOp_preserves (s : ResState) (op : ResOp)
    (h : s.reserved_bytes = liveSum s) :
    (applyResOp s op).reserved_bytes = liveSum (applyResOp s op) := by
  cases op with
  | reserve b =>
    simp [applyResOp, liveSum] at h ⊢
    rw [h]
    ring
  | update tok new_size =>
    cases heq : alistGet tok s.live with
    | none => simpa [applyResOp, heq] using h
    | some old_size =>
      simp only [applyResOp, heq, liveSum] at h ⊢
      rw [map_sum_alistSet tok new_size s.live old_size heq]
      omega
  | drop tok =>
    cases heq : alistGet tok s.live with
    | none => simpa [applyResOp, heq] using h
    | some sz =>
      simp only [applyResOp, heq, liveSum] at h ⊢
      rw [map_sum_alistRemove tok s.live sz heq]
      omega

theorem runResOps_inv (ops : List ResOp) :
    (runResOps ops).reserved_bytes = liveSum (runResOps ops) := by
  suffices h : ∀ (l : List ResOp) (s : ResState), s.reserved_bytes = liveSum s →
      (l.foldl applyResOp s).reserved_bytes = liveSum (l.foldl applyResOp s) by
    exact h ops initRes (by simp [initRes, liveSum])
  intro l
  induction l with
  | nil => intro s hs; simpa using hs
  | cons op rest ih => intro s hs; exact ih _ (applyResOp_preserves s op hs)

/-- C2: after every finite sequence of reserve/update/drop operations on
one disk, `reserved_bytes` equals the sum of the current sizes of all
live reservations and is never negative; `update(new_size)` changes
`reserved_bytes` by exactly `new_size` minus the reservation's previous
size, and destroying a reservation subtracts its full current size. -/
theorem C2_reservation_accounting :
    (∀ ops : List ResOp,
      (runResOps ops).reserved_bytes = liveSum (runResOps ops)
      ∧ 0 ≤ (runResOps ops).reserved_bytes)
  ∧ (∀ (s : ResState) (tok old_size new_size : Nat),
      alistGet tok s.live = some old_size →
      (applyResOp s (ResOp.update tok new_size)).reserved_bytes
        = s.reserved_bytes + new_size - old_size)
  ∧ (∀ (s : ResState) (tok sz : Nat),
      alistGet tok s.live = some sz →
      (applyResOp s (ResOp.drop tok)).reserved_bytes = s.reserved_bytes - sz) := by
  refine ⟨?_, ?_, ?_⟩
  · intro ops
    have h := runResOps_inv ops
    exact ⟨h, h ▸ liveSum_nonneg _⟩
  · intro s tok old_size new_size heq
    simp only [applyResOp, heq]
    ring
  · intro s tok sz heq
    simp only [applyResOp, heq]

/-- Witness for C2 at concrete reservation states. -/
theorem C2_reservation_accounting_witness :
    ((runResOps [ResOp.reserve 5]).reserved_bytes = liveSum (runResOps [ResOp.reserve 5])
      ∧ 0 ≤ (runResOps [ResOp.reserve 5]).reserved_bytes)
  ∧ (applyResOp ⟨5, 1, [(0, 5)], 1⟩ (ResOp.update 0 7)).reserved_bytes
      = (5 : Int) + ((7 : Nat) : Int) - ((5 : Nat) : Int)
  ∧ (applyResOp ⟨7, 1, [(0, 7)], 1⟩ (ResOp.drop 0)).reserved_bytes
      = (7 : Int) - ((7 : Nat) : Int) :=
  ⟨C2_reservation_accounting.1 [ResOp.reserve 5],
   C2_reservation_accounting.2.1 ⟨5, 1, [(0, 5)], 1⟩ 0 5 7 (by decide),
   C2_reservation_accounting.2.2 ⟨7, 1, [(0, 7)], 1⟩ 0 7 (by decide)⟩

/-! ### Path Batcher lemmas -/

theorem addPaths_bound (k : Nat) (hk : 1 ≤ k) :
    ∀ (ps : List String) (s : PathKeeperState), s.chunk_limit = k →
      (∀ b ∈ s.batches, b.length ≤ k) → s.current.length < k →
      (∀ b ∈ (addPaths s ps).batches, b.length ≤ k)
      ∧ (addPaths s ps).current.length < k
      ∧ (allBatches (addPaths s ps)).flatten = (allBatches s).flatten ++ ps := by
  intro ps
  induction ps with
  | nil =>
    intro s hlim hb hc
    exact ⟨hb, hc, by simp [addPaths, allBatches]⟩
  | cons p rest ih =>
    intro s hlim hb hc
    have hstep : addPaths s (p :: rest) = addPaths (addPath s p) rest := rfl
    rw [hstep]
    by_cases hfull : k ≤ s.current.length + 1
    · have haddp : addPath s p = ⟨k, s.batches ++ [s.current ++ [p]], []⟩ := by
        simp [addPath, hlim, hfull]
      obtain ⟨h1, h2, h3⟩ := ih ⟨k, s.batches ++ [s.current ++ [p]], []⟩ rfl
        (by
          intro b hb2
          rcases List.mem_append.mp hb2 with h | h
          · exact hb b h
          · simp only [List.mem_singleton] at h
            subst h
            simpa using hc)
        (by simpa using hk)
      rw [haddp]
      refine ⟨h1, h2, ?_⟩
      rw [h3]
      simp [allBatches]
    · have haddp : addPath s p = ⟨k, s.batches, s.current ++ [p]⟩ := by
        simp [addPath, hlim, hfull]
      obtain ⟨h1, h2, h3⟩ := ih ⟨k, s.batches, s.current ++ [p]⟩ rfl
        (by simpa using hb)
        (by simp; omega)
      rw [haddp]
      refine ⟨h1, h2, ?_⟩
      rw [h3]
      simp [allBatches]

/-- C7 counterexample: with `chunk_limit = 0` and a single added path, the
claim's batching bound fails — the emitted batch holds one identifier,
more than the chunk limit. -/
theorem C7_batching_bound_counterexample :
    ¬ (∀ b ∈ allBatches (addPaths (initKeeper 0) ["a"]), b.length ≤ 0) := by
  decide

/-- C7 (amended): for every chunk_limit `k ≥ 1` and every sequence of
paths added to a fresh Path Batcher, no emitted batch contains more than
`k` identifiers, and the concatenation of all emitted batches is exactly
the sequence of added paths — no duplicates, no omissions. -/
theorem C7_batching_bound_amended :
    ∀ (k : Nat) (ps : List String), 1 ≤ k →
      (∀ b ∈ allBatches (addPaths (initKeeper k) ps), b.length ≤ k)
      ∧ (allBatches (addPaths (initKeeper k) ps)).flatten = ps := by
  intro k ps hk
  obtain ⟨h1, h2, h3⟩ := addPaths_bound k hk ps (initKeeper k) rfl
    (by simp [initKeeper]) (by simpa [initKeeper] using hk)
  constructor
  · intro b hb
    rcases (by simpa [allBatches] using hb :
        b ∈ (addPaths (initKeeper k) ps).batches ∨ b = (addPaths (initKeeper k) ps).current)
      with h | h
    · exact h1 b h
    · subst h
      exact le_of_lt h2
  · rw [h3]
    simp [allBatches, initKeeper]

/-- Witness for C7 (amended) at chunk limit 2 and three paths. -/
theorem C7_batching_bound_witness :
    (∀ b ∈ allBatches (addPaths (initKeeper 2) ["a", "b", "c"]), b.length ≤ 2)
    ∧ (allBatches (addPaths (initKeeper 2) ["a", "b", "c"])).flatten = ["a", "b", "c"] :=
  C7_batching_bound_amended 2 ["a", "b", "c"] (by decide)

/-! ### Directory iterator lemmas -/

theorem foldl_no_slash :
    ∀ (l acc : List Char), (∀ c ∈ l, c ≠ '/') →
      l.foldl (fun acc c => if c = '/' then [] else acc ++ [c]) acc = acc ++ l := by
  intro l
  induction l with
  | nil => intro acc _; simp
  | cons c cs ih =>
    intro acc hl
    have hc : c ≠ '/' := hl c (List.mem_cons_self _ _)
    rw [List.foldl_cons, if_neg hc,
      ih (acc ++ [c]) (fun d hd => hl d (List.mem_cons_of_mem _ hd))]
    simp

theorem filenameOf_append (dir fname : String) (h : ∀ c ∈ fname.data, c ≠ '/') :
    filenameOf (dir ++ "/" ++ fname) = fname := by
  unfold filenameOf
  have hdata : (dir ++ "/" ++ fname).data = (dir.data ++ ['/']) ++ fname.data := by
    rw [String.data_append, String.data_append]
  rw [hdata, List.foldl_append, List.foldl_append]
  have hsl : List.foldl (fun acc c => if c = '/' then [] else acc ++ [c])
      (List.foldl (fun acc c => if c = '/' then [] else acc ++ [c]) [] dir.data) ['/'] = [] := by
    simp
  rw [hsl, foldl_no_slash fname.data [] h]
  simp

theorem data_ne_nil_of_ne_empty (s : String) (h : s ≠ "") : s.data ≠ [] := by
  intro hd
  apply h
  cases s
  simp at hd
  simp [hd]

theorem getLast_pathAppend (folder fname : String) (hne : fname.data ≠ []) :
    (pathAppend folder fname).data.getLast? = fname.data.getLast? := by
  unfold pathAppend
  by_cases hp : folder.data.getLast? = some '/'
  · rw [if_pos hp, String.data_append, List.getLast?_append_of_ne_nil _ hne]
  · rw [if_neg hp, String.data_append, String.data_append,
      List.append_assoc, List.getLast?_append_of_ne_nil _ (by simp [hne])]
    exact List.getLast?_append_of_ne_nil _ hne

theorem pathAppend_empty_getLast (q : String) :
    (pathAppend q "").data.getLast? = some '/' := by
  unfold pathAppend
  by_cases hq : q.data.getLast? = some '/'
  · rw [if_pos hq, String.data_append]
    simpa using hq
  · rw [if_neg hq, String.data_append, String.data_append]
    have h1 : ("" : String).data = [] := rfl
    have h2 : ("/" : String).data = ['/'] := rfl
    rw [h1, h2, List.append_nil]
    rw [List.getLast?_append_of_ne_nil _ (by simp)]
    rfl

/-- C9: a directory-iterator entry whose underlying path is
`dir ++ "/" ++ fname` yields the bare final component `fname` as its
name, and its reported path carries a trailing separator exactly when the
entry denotes a subdirectory. -/
theorem C9_iterator_path_and_name :
    ∀ (folder dir fname : String) (is_dir : Bool),
      fname ≠ "" → (∀ c ∈ fname.data, c ≠ '/') →
      iterName ⟨dir ++ "/" ++ fname, is_dir⟩ = fname
      ∧ ((iterPath folder ⟨dir ++ "/" ++ fname, is_dir⟩).data.getLast? = some '/'
          ↔ is_dir = true) := by
  intro folder dir fname is_dir hne hns
  have hdne : fname.data ≠ [] := data_ne_nil_of_ne_empty fname hne
  have hfn : filenameOf (dir ++ "/" ++ fname) = fname := filenameOf_append dir fname hns
  have hlast : (pathAppend folder fname).data.getLast? = fname.data.getLast? :=
    getLast_pathAppend folder fname hdne
  have hfne : fname.data.getLast? ≠ some '/' := by
    rw [List.getLast?_eq_getLast fname.data hdne]
    intro hcontr
    exact hns _ (List.getLast_mem hdne) (Option.some.injEq _ _ ▸ hcontr)
  refine ⟨hfn, ?_⟩
  cases is_dir with
  | false =>
    have hno : (pathAppend folder fname).data.getLast? ≠ some '/' := by
      rw [hlast]
      exact hfne
    simp [iterPath, hfn, hno]
  | true =>
    have hyes : (pathAppend (pathAppend folder fname) "").data.getLast? = some '/' :=
      pathAppend_empty_getLast _
    simp [iterPath, hfn, hyes]

/-- Witness for C9 at a concrete file entry and directory entry. -/
theorem C9_iterator_path_and_name_witness :
    (iterName ⟨"full" ++ "/" ++ "sub", true⟩ = "sub"
      ∧ ((iterPath "meta" ⟨"full" ++ "/" ++ "sub", true⟩).data.getLast? = some '/'
          ↔ true = true))
    ∧ (iterName ⟨"full" ++ "/" ++ "f.bin", false⟩ = "f.bin"
      ∧ ((iterPath "meta" ⟨"full" ++ "/" ++ "f.bin", false⟩).data.getLast? = some '/'
          ↔ false = true)) :=
  ⟨C9_iterator_path_and_name "meta" "full" "sub" true (by decide) (by decide),
   C9_iterator_path_and_name "meta" "full" "f.bin" false (by decide) (by decide)⟩

/-- C5: for every task run by the executor worker, an error raised inside
the task never escapes into the pool's control flow; it is logged and
attached to the returned handle, and a failure to attach it is swallowed
(the handle simply stays unfulfilled); a task that completes normally
marks the handle done, so when attachment succeeds the handle observes
exactly one of normal completion or the carried error. -/
theorem C5_executor_error_containment :
    ∀ (t : TaskOutcome) (f : Bool),
      (runSubmittedTask t f).escaped_to_pool = none
    ∧ (∀ e, t = TaskOutcome.raises e → e ∈ (runSubmittedTask t f).logged)
    ∧ (t = TaskOutcome.ok → runSubmittedTask t f = ⟨HandleState.done, [], none⟩)
    ∧ (∀ e, t = TaskOutcome.raises e → f = false →
        (runSubmittedTask t f).handle = HandleState.failed e)
    ∧ (f = false →
        (runSubmittedTask t f).handle = HandleState.done ∨
          ∃ e, (runSubmittedTask t f).handle = HandleState.failed e
            ∧ t = TaskOutcome.raises e) := by
  intro t f
  cases t <;> cases f <;> simp [runSubmittedTask]

/-- Witness for C5 at a concrete failing task. -/
theorem C5_executor_error_containment_witness :
    (runSubmittedTask (TaskOutcome.raises ⟨ErrorCode.NOT_IMPLEMENTED, "boom"⟩) false).handle
      = HandleState.failed ⟨ErrorCode.NOT_IMPLEMENTED, "boom"⟩ :=
  (C5_executor_error_containment
    (TaskOutcome.raises ⟨ErrorCode.NOT_IMPLEMENTED, "boom"⟩) false).2.2.2.1
    ⟨ErrorCode.NOT_IMPLEMENTED, "boom"⟩ rfl rfl

/-- C6: on the base remote-disk facade, `removeFromRemoteFS` and
`createFSPathKeeper` fail with the not-supported error for every
argument; neither default implementation performs any work. -/
theorem C6_base_hooks_not_supported :
    ∀ (disk_name : String) (kp : PathKeeperState),
      removeFromRemoteFS disk_name kp =
        Except.error ⟨ErrorCode.NOT_IMPLEMENTED,
          "Disk " ++ disk_name ++ " does not support removing remote files"⟩
    ∧ createFSPathKeeper disk_name =
        Except.error ⟨ErrorCode.NOT_IMPLEMENTED,
          "Disk " ++ disk_name ++ " does not support FS paths keeper"⟩ :=
  fun _ _ => ⟨rfl, rfl⟩

/-- C8: the public removal entry points are definitional specializations
of the shared-removal operations with `keep_in_remote_fs` fixed to
`false`. -/
theorem C8_public_removals_are_shared_specializations :
    ∀ (p : String) (s : FsState),
      removeFile p s = removeSharedFile p false s
    ∧ removeRecursive p s = removeSharedRecursive p false s :=
  fun _ _ => ⟨rfl, rfl⟩

/-- C10: `moveDirectory` behaves identically to `moveFile` on every pair
of paths and every state — moving a directory is the same local
metadata-node rename, with no directory-specific handling. -/
theorem C10_moveDirectory_is_moveFile :
    ∀ (from_path to_path : String) (s : FsState),
      moveDirectory from_path to_path s = moveFile from_path to_path s :=
  fun _ _ _ => rfl

end DiskRemote
